import Mathlib

/-!
Verification of the `copyright-hook` repository.

The development shallowly embeds the three core modules:

* `years_pattern.py` (`YearsPattern`): a template with one `\x7byears\x7d`
  placeholder is compiled into the regular expression
  `re.escape(pre) + r"\s*(?:(?P<from>\d+)\s*-\s*(?P<to>\d+)|(?P<year>\d+))\s*"
  + re.escape(suf)`.  Since `re.escape` makes both pattern halves match
  literally, the compiled pattern is fully determined by the pair
  `(pre, suf)`.  The Python backtracking search for this fixed pattern shape
  is transcribed directly: literals match literally, `\s*` is a greedy
  (longest-first) star over whitespace, `\d+` is a greedy plus over digits,
  the two alternatives are tried in order (range first), and `search` returns
  the match at the leftmost feasible start position.  Texts are `List Char`;
  `\d` / `\s` are modelled by their ASCII classes (the year claims never
  involve non-ASCII digit or space characters).

* `copyright.py` (`update_file`, `compute_last_modified_dict`).

* `git_utilities.py` (`GitChangeSet.__post_init__`, `GitChangeSet.parse`,
  `GitChangeSet.__bool__`).  Python exceptions (ValueError from tuple
  unpacking, IndexError from `extra_files[0]`, ValueError from
  `YearsPattern.__init__` / `replace`) are modelled by `Option`, with `none`
  meaning "raises".
-/

abbrev Str := List Char

/-- ASCII fragment of Python's `\d` character class. -/
def isDigitC (c : Char) : Bool := c.isDigit

/-- ASCII fragment of Python's `\s` character class: space, tab, newline,
carriage return, vertical tab, form feed. -/
def isSpaceC (c : Char) : Bool :=
  c = ' ' || c = '\t' || c = '\n' || c = '\r' || c = '\x0b' || c = '\x0c'

/-- `startsWithL pat s` : does `s` start with `pat`?  (Python `str.startswith`.) -/
def startsWithL : Str → Str → Bool
  | [], _ => true
  | _ :: _, [] => false
  | c :: cs, c' :: s => c = c' && startsWithL cs s

/-- Index of the first occurrence of `sub` in `s` (Python `str.find`). -/
def findSub (sub : Str) : Str → Option Nat
  | [] => if startsWithL sub [] then some 0 else none
  | c :: s => if startsWithL sub (c :: s) then some 0 else (findSub sub s).map (· + 1)

/-- Substring containment (Python `in` on strings). -/
def containsSub (sub : Str) : Str → Bool
  | [] => startsWithL sub []
  | c :: s => startsWithL sub (c :: s) || containsSub sub s

/-- First `some` result of `f` over a list, in order (models a backtracking
engine trying candidates in a fixed order). -/
def firstSome? {α β : Type} (f : α → Option β) : List α → Option β
  | [] => none
  | a :: l => match f a with
    | some b => some b
    | none => firstSome? f l

/-- `[n, n-1, ..., 0]`: the candidate consumption counts of a greedy `*`. -/
def descFrom : Nat → List Nat
  | 0 => [0]
  | n + 1 => (n + 1) :: descFrom n

/-- `[n, n-1, ..., 1]`: the candidate consumption counts of a greedy `+`. -/
def descFrom1 : Nat → List Nat
  | 0 => []
  | n + 1 => (n + 1) :: descFrom1 n

/-- Length of the longest prefix of `s` whose characters satisfy `p`
(the most a greedy `p*` can consume). -/
def maxRun (p : Char → Bool) : Str → Nat
  | [] => 0
  | c :: s => if p c then maxRun p s + 1 else 0

/-- The Python slicing `content[st:en]`. -/
def sliceStr (content : Str) (st en : Nat) : Str := (content.drop st).take (en - st)

/-- `years_pattern.py` line 8: the placeholder `\x7byears\x7d`. -/
def placeholder : Str := "\x7byears\x7d".toList

/-- The compiled pattern: the escaped template text before and after the
placeholder (`years_pattern.py` lines 22-25). -/
structure YearsPattern where
  pre : Str
  suf : Str
deriving DecidableEq

/-- `YearsPattern.__init__` (`years_pattern.py` lines 13-25): `none` models
the `ValueError` raised when the placeholder is absent; otherwise the
template is split at the first occurrence of the placeholder. -/
def mkYearsPattern (template : Str) : Option YearsPattern :=
  if containsSub placeholder template then
    match findSub placeholder template with
    | none => none
    | some i => some ⟨template.take i, template.drop (i + placeholder.length)⟩
  else none

/-- Match a literal character sequence (an `re.escape`d pattern half) at the
head of `s`; returns the remaining text and the advanced position. -/
def matchLits : Str → Str → Nat → Option (Str × Nat)
  | [], s, pos => some (s, pos)
  | _ :: _, [], _ => none
  | c :: cs, c' :: s, pos => if c' = c then matchLits cs s (pos + 1) else none

/-- Group spans (byte offsets in the content) of a successful match:
either the `from`/`to` spans of a range, or the `year` span. -/
inductive MatchSpans where
  | range : Nat → Nat → Nat → Nat → MatchSpans
  | single : Nat → Nat → MatchSpans
deriving DecidableEq

/-- The closing `\s*` of the year sub-pattern followed by the escaped suffix;
greedy, with backtracking over the amount of whitespace consumed. -/
def matchTail (suf : Str) (s : Str) (pos : Nat) : Option Nat :=
  firstSome? (fun w => (matchLits suf (s.drop w) (pos + w)).map (fun r => r.2))
    (descFrom (maxRun isSpaceC s))

/-- The first alternative `(?P<from>\d+)\s*-\s*(?P<to>\d+)` followed by the
closing `\s*` and the suffix.  Each `\d+` / `\s*` is greedy with
backtracking, nested depth-first exactly as in the `re` engine. -/
def matchRangeAlt (suf : Str) (s : Str) (pos : Nat) : Option MatchSpans :=
  firstSome? (fun j =>
    let s1 := s.drop j
    firstSome? (fun a =>
      match s1.drop a with
      | [] => none
      | c :: s2 =>
        if c = '-' then
          firstSome? (fun b =>
            let s3 := s2.drop b
            let tpos := pos + j + a + 1 + b
            firstSome? (fun m =>
              (matchTail suf (s3.drop m) (tpos + m)).map
                (fun _ => MatchSpans.range pos (pos + j) tpos (tpos + m)))
              (descFrom1 (maxRun isDigitC s3)))
            (descFrom (maxRun isSpaceC s2))
        else none)
      (descFrom (maxRun isSpaceC s1)))
    (descFrom1 (maxRun isDigitC s))

/-- The second alternative `(?P<year>\d+)` followed by the closing `\s*` and
the suffix. -/
def matchSingleAlt (suf : Str) (s : Str) (pos : Nat) : Option MatchSpans :=
  firstSome? (fun m =>
    (matchTail suf (s.drop m) (pos + m)).map (fun _ => MatchSpans.single pos (pos + m)))
    (descFrom1 (maxRun isDigitC s))

/-- Attempt to match the whole compiled pattern starting at offset `q` of
`content`: prefix literals, the opening greedy `\s*`, then the ordered
alternation (range before single year). -/
def matchAt (pre suf : Str) (content : Str) (q : Nat) : Option MatchSpans :=
  match matchLits pre (content.drop q) q with
  | none => none
  | some (s0, pos0) =>
    firstSome? (fun w =>
      let s1 := s0.drop w
      let pos1 := pos0 + w
      match matchRangeAlt suf s1 pos1 with
      | some r => some r
      | none => matchSingleAlt suf s1 pos1)
      (descFrom (maxRun isSpaceC s0))

/-- `re.search`: the match at the leftmost start offset where the pattern
matches. -/
def search (p : YearsPattern) (content : Str) : Option MatchSpans :=
  firstSome? (fun q => matchAt p.pre p.suf content q) (List.range (content.length + 1))

/-- Result type of `YearsPattern.extract`
(Python `Union[str, tuple[str, str], None]`; `none` is the no-match case). -/
inductive Years where
  | single : Str → Years
  | range : Str → Str → Years
deriving DecidableEq

/-- Argument type of `YearsPattern.replace`
(Python `Union[tuple[str, str], str]`). -/
inductive NewRange where
  | one : Str → NewRange
  | pair : Str → Str → NewRange
deriving DecidableEq

/-- `YearsPattern.extract` (`years_pattern.py` lines 27-36). -/
def extract (p : YearsPattern) (content : Str) : Option Years :=
  match search p content with
  | none => none
  | some (.range fs fe ts te) => some (.range (sliceStr content fs fe) (sliceStr content ts te))
  | some (.single ys ye) => some (.single (sliceStr content ys ye))

/-- `YearsPattern.replace` (`years_pattern.py` lines 38-56); `none` models
the `ValueError` raised when the pattern does not match. -/
def replace (p : YearsPattern) (content : Str) (new_range : NewRange) : Option Str :=
  match search p content with
  | none => none
  | some (.range fs fe ts te) =>
    match new_range with
    | .pair rf rt => some (content.take fs ++ rf ++ sliceStr content fe ts ++ rt ++ content.drop te)
    | .one v => some (content.take fs ++ v ++ content.drop te)
  | some (.single ys ye) =>
    match new_range with
    | .pair rf rt => some (content.take ys ++ rf ++ ('-' :: rt) ++ content.drop ye)
    | .one v => some (content.take ys ++ v ++ content.drop ye)

/-- `copyright.py` line 26. -/
def NO_COPYRIGHT_HEADER_FOUND : Str := "no copyright comment found".toList

/-- `copyright.py` line 27. -/
def RANGE_USED_FOR_A_SINGLE_YEAR : Str := "range syntax is used for a single year".toList

/-- The f-string `"expected year \x7blast_year\x7d, actual is \x7bactual\x7d"`
of `copyright.py` lines 220 and 227. -/
def mismatchMsg (last_year actual : Str) : Str :=
  "expected year ".toList ++ last_year ++ ", actual is ".toList ++ actual

/-- `update_file` (`copyright.py` lines 198-227).  The outer `Option` models
exception propagation out of `pattern.replace` (which in fact never fires
here, because `extract` succeeding implies the search succeeds). -/
def update_file (content last_year : Str) (p : YearsPattern) (current_year : Str)
    (required : Bool) : Option (Option Str × Str) :=
  match extract p content with
  | none =>
    if required then some (some NO_COPYRIGHT_HEADER_FOUND, content)
    else some (none, content)
  | some (.range y_from y_to) =>
    if y_from = y_to then
      if y_from = current_year then
        (replace p content (.one current_year)).map
          (fun c => (some RANGE_USED_FOR_A_SINGLE_YEAR, c))
      else
        (replace p content (.pair y_from current_year)).map
          (fun c => (some RANGE_USED_FOR_A_SINGLE_YEAR, c))
    else if last_year = y_to then some (none, content)
    else
      (replace p content (.pair y_from current_year)).map
        (fun c => (some (mismatchMsg last_year y_to), c))
  | some (.single years) =>
    if years = last_year then some (none, content)
    else
      (replace p content (.pair years current_year)).map
        (fun c => (some (mismatchMsg last_year years), c))

/-- Python's `a, *mid, b = item` for the fields after the type code:
`some (mid, b)` when the list is nonempty, `none` models the `ValueError`
raised by unpacking when too few fields are present. -/
def splitLast : List Str → Option (List Str × Str)
  | [] => none
  | [x] => some ([], x)
  | x :: y :: xs =>
    match splitLast (y :: xs) with
    | some (mid, last) => some (x :: mid, last)
    | none => none

/-- Accumulator for `GitChangeSet.__post_init__`:
`(touched_files, changed_files, moved_files)`.  The Python sets are modelled
as insertion-ordered lists; only membership is ever consumed. -/
abbrev CSAcc := List Str × List Str × List (Str × Str)

/-- One loop iteration of `GitChangeSet.__post_init__`
(`git_utilities.py` lines 21-31).  `none` models the `ValueError` from
unpacking a record with fewer than two fields, and the `IndexError` from
`extra_files[0]` on a rename record with no source path. -/
def csStep (acc : CSAcc) (item : List Str) : Option CSAcc :=
  match item with
  | [] => none
  | change_type :: rest =>
    match splitLast rest with
    | none => none
    | some (extra_files, dst) =>
      if startsWithL "R".toList change_type then
        match extra_files with
        | [] => none
        | e0 :: _ =>
          some (acc.1 ++ [dst],
                acc.2.1 ++ (if change_type = "R100".toList then [] else [dst]),
                acc.2.2 ++ [(e0, dst)])
      else
        some (acc.1 ++ [dst], acc.2.1 ++ [dst], acc.2.2)

/-- The loop of `GitChangeSet.__post_init__` over all records. -/
def csFold : List (List Str) → CSAcc → Option CSAcc
  | [], acc => some acc
  | it :: its, acc =>
    match csStep acc it with
    | some acc' => csFold its acc'
    | none => none

/-- `GitChangeSet` (`git_utilities.py` lines 10-31), with the three derived
fields. -/
structure GitChangeSet where
  items : List (List Str)
  changed_files : List Str
  moved_files : List (Str × Str)
  touched_files : List Str
deriving DecidableEq

/-- Constructing a `GitChangeSet` from its records; `none` models an
exception escaping `__post_init__`. -/
def mkGitChangeSet (items : List (List Str)) : Option GitChangeSet :=
  match csFold items ([], [], []) with
  | none => none
  | some (t, c, m) => some ⟨items, c, m, t⟩

/-- `GitChangeSet.__bool__` (`git_utilities.py` lines 33-34). -/
def csBool (cs : GitChangeSet) : Bool := !cs.items.isEmpty

/-- Python `line.split("\t")`: split on tab, keeping empty fields. -/
def splitTabs : Str → List Str
  | [] => [[]]
  | c :: s =>
    match splitTabs s with
    | [] => [[c]]
    | g :: gs => if c = '\t' then [] :: g :: gs else (c :: g) :: gs

/-- `GitChangeSet.parse` (`git_utilities.py` lines 36-40) on a list of lines:
falsy (empty) lines are dropped, the rest are tab-split into records. -/
def parseChangeSet (lines : List Str) : Option GitChangeSet :=
  mkGitChangeSet ((lines.filter (fun l => l ≠ [])).map splitTabs)

/-- `GitCommitInfo` (`git_utilities.py` lines 43-50); timestamps are
abstracted to `Nat` (only equality of the stored values matters here). -/
structure GitCommitInfo where
  author_date : Nat
  changes : GitChangeSet

/-- A Python `dict` keyed by paths: later insertions shadow earlier ones. -/
abbrev PathDict := List (Str × Nat)

/-- Dict lookup (`d[k]` / `d.get(k)` / `k in d`). -/
def dlookup : PathDict → Str → Option Nat
  | [], _ => none
  | (k, v) :: d, key => if k = key then some v else dlookup d key

/-- Dict assignment `d[k] = v`. -/
def dinsert (d : PathDict) (k : Str) (v : Nat) : PathDict := (k, v) :: d

/-- The body of the per-commit loop of `compute_last_modified_dict`
(`copyright.py` lines 48-53): first propagate entries along `moved_files`
(skipping moves whose source is absent), then overwrite the entry of every
changed file with the commit's own timestamp. -/
def applyCommit (d : PathDict) (commit : GitCommitInfo) : PathDict :=
  let d1 := commit.changes.moved_files.foldl
    (fun d sd =>
      match dlookup d sd.1 with
      | some v => dinsert d sd.2 v
      | none => d) d
  commit.changes.changed_files.foldl (fun d f => dinsert d f commit.author_date) d1

/-- `compute_last_modified_dict` (`copyright.py` lines 45-54): the commits
are given newest first and replayed in reverse (oldest first). -/
def compute_last_modified_dict (commits : List GitCommitInfo) : PathDict :=
  commits.reverse.foldl applyCommit []

/-! ### Lemmas about the matching engine -/

theorem firstSome?_some {α β : Type} {f : α → Option β} :
    ∀ {l : List α} {b : β}, firstSome? f l = some b → ∃ a, a ∈ l ∧ f a = some b := by
  intro l
  induction l with
  | nil => intro b h; simp [firstSome?] at h
  | cons a l ih =>
    intro b h
    rw [firstSome?] at h
    cases hfa : f a with
    | some b' =>
      refine ⟨a, List.mem_cons_self a l, ?_⟩
      rw [hfa] at h ⊢
      exact h
    | none =>
      rw [hfa] at h
      obtain ⟨a', ha', hfa'⟩ := ih h
      exact ⟨a', List.mem_cons_of_mem a ha', hfa'⟩

theorem mem_descFrom {k n : Nat} (h : k ∈ descFrom n) : k ≤ n := by
  induction n with
  | zero => simp [descFrom] at h; omega
  | succ n ih =>
    rw [descFrom] at h
    rcases List.mem_cons.1 h with h1 | h2
    · omega
    · exact Nat.le_trans (ih h2) (Nat.le_succ n)

theorem mem_descFrom1 {k n : Nat} (h : k ∈ descFrom1 n) : 1 ≤ k ∧ k ≤ n := by
  induction n with
  | zero => simp [descFrom1] at h
  | succ n ih =>
    rw [descFrom1] at h
    rcases List.mem_cons.1 h with h1 | h2
    · omega
    · obtain ⟨ha, hb⟩ := ih h2; omega

theorem maxRun_le_length (p : Char → Bool) : ∀ (s : Str), maxRun p s ≤ s.length := by
  intro s
  induction s with
  | nil => simp [maxRun]
  | cons c s ih =>
    rw [maxRun]
    cases hpc : p c
    · simp
    · simp only [if_true, List.length_cons]
      omega

theorem take_all_of_le_maxRun {p : Char → Bool} :
    ∀ {s : Str} {k : Nat}, k ≤ maxRun p s → (s.take k).all p = true := by
  intro s
  induction s with
  | nil =>
    intro k h
    simp [maxRun] at h
    simp [h]
  | cons c s ih =>
    intro k h
    rw [maxRun] at h
    cases hpc : p c
    · rw [hpc] at h
      simp only [Bool.false_eq_true, if_false, Nat.le_zero] at h
      simp [h]
    · rw [hpc] at h
      simp only [if_true] at h
      cases k with
      | zero => simp
      | succ k =>
        rw [List.take_succ_cons, List.all_cons, hpc, Bool.true_and]
        exact ih (by omega)

theorem maxRun_pos_ne_nil {p : Char → Bool} {s : Str} (h : 1 ≤ maxRun p s) : s ≠ [] := by
  intro hnil
  rw [hnil] at h
  simp [maxRun] at h

theorem matchLits_some :
    ∀ {lits s : Str} {pos : Nat} {s' : Str} {pos' : Nat},
      matchLits lits s pos = some (s', pos') →
      s' = s.drop lits.length ∧ pos' = pos + lits.length := by
  intro lits
  induction lits with
  | nil =>
    intro s pos s' pos' h
    rw [matchLits] at h
    injection h with h
    injection h with h1 h2
    simp [← h1, ← h2]
  | cons c cs ih =>
    intro s pos s' pos' h
    cases s with
    | nil => rw [matchLits] at h; exact absurd h (by simp)
    | cons c' s2 =>
      rw [matchLits] at h
      by_cases hc : c' = c
      · rw [if_pos hc] at h
        obtain ⟨h1, h2⟩ := ih h
        refine ⟨by simpa using h1, ?_⟩
        rw [List.length_cons]
        omega
      · rw [if_neg hc] at h; exact absurd h (by simp)

theorem drop_eq_cons {l : Str} {n : Nat} {c : Char} {s : Str} (h : l.drop n = c :: s) :
    l.drop (n + 1) = s := by
  have := List.drop_drop 1 n l
  rw [h] at this
  simpa using this.symm

/-- A well-formed captured span: nonempty, and lying within a digit run of
the content at its start offset. -/
def goodSpan (content : Str) (st en : Nat) : Prop :=
  st < en ∧ en - st ≤ maxRun isDigitC (content.drop st)

/-- All group spans of a match are well-formed digit spans. -/
def spanOK (content : Str) : MatchSpans → Prop
  | .range fs fe ts te => goodSpan content fs fe ∧ goodSpan content ts te
  | .single ys ye => goodSpan content ys ye

theorem matchRangeAlt_sound {suf s : Str} {pos : Nat} {content : Str} {ms : MatchSpans}
    (hs : s = content.drop pos) (h : matchRangeAlt suf s pos = some ms) :
    spanOK content ms := by
  unfold matchRangeAlt at h
  obtain ⟨j, hjmem, hj⟩ := firstSome?_some h
  obtain ⟨hj1, hjle⟩ := mem_descFrom1 hjmem
  simp only at hj
  obtain ⟨a, _, ha⟩ := firstSome?_some hj
  have hsj : s.drop j = content.drop (pos + j) := by rw [hs, List.drop_drop]
  have hsja : (s.drop j).drop a = content.drop (pos + j + a) := by
    rw [hsj, List.drop_drop]
  split at ha
  · exact absurd ha (by simp)
  · rename_i c s2 hsd
    split at ha
    · rename_i hc
      obtain ⟨b, _, hb⟩ := firstSome?_some ha
      obtain ⟨m, hmmem, hm⟩ := firstSome?_some hb
      obtain ⟨hm1, hmle⟩ := mem_descFrom1 hmmem
      simp only [Option.map_eq_some'] at hm
      obtain ⟨e, _, hms⟩ := hm
      have hs2 : s2 = content.drop (pos + j + a + 1) := by
        rw [hsd] at hsja
        exact (drop_eq_cons hsja.symm).symm
      have hs3 : s2.drop b = content.drop (pos + j + a + 1 + b) := by
        rw [hs2, List.drop_drop]
      rw [← hms]
      constructor
      · refine ⟨by omega, ?_⟩
        rw [← hs]
        have hsub : pos + j - pos = j := by omega
        rw [hsub]
        exact hjle
      · refine ⟨by omega, ?_⟩
        rw [← hs3]
        have hsub : pos + j + a + 1 + b + m - (pos + j + a + 1 + b) = m := by omega
        rw [hsub]
        exact hmle
    · exact absurd ha (by simp)

theorem matchSingleAlt_sound {suf s : Str} {pos : Nat} {content : Str} {ms : MatchSpans}
    (hs : s = content.drop pos) (h : matchSingleAlt suf s pos = some ms) :
    spanOK content ms := by
  unfold matchSingleAlt at h
  obtain ⟨m, hmmem, hm⟩ := firstSome?_some h
  obtain ⟨hm1, hmle⟩ := mem_descFrom1 hmmem
  simp only [Option.map_eq_some'] at hm
  obtain ⟨e, _, hms⟩ := hm
  rw [← hms]
  refine ⟨by omega, ?_⟩
  rw [← hs]
  have hsub : pos + m - pos = m := by omega
  rw [hsub]
  exact hmle

theorem matchAt_sound {pre suf content : Str} {q : Nat} {ms : MatchSpans}
    (h : matchAt pre suf content q = some ms) : spanOK content ms := by
  unfold matchAt at h
  split at h
  · exact absurd h (by simp)
  · rename_i r s0 pos0 hL
    obtain ⟨hs0, hpos0⟩ := matchLits_some hL
    have hs0' : s0 = content.drop pos0 := by
      rw [hs0, List.drop_drop, hpos0]
    obtain ⟨w, _, hw⟩ := firstSome?_some h
    simp only at hw
    have hs1 : s0.drop w = content.drop (pos0 + w) := by
      rw [hs0', List.drop_drop]
    split at hw
    · rename_i r' hR
      injection hw with hw
      rw [← hw]
      exact matchRangeAlt_sound hs1 hR
    · exact matchSingleAlt_sound hs1 hw

theorem search_sound {p : YearsPattern} {content : Str} {ms : MatchSpans}
    (h : search p content = some ms) : spanOK content ms := by
  unfold search at h
  obtain ⟨q, _, hq⟩ := firstSome?_some h
  exact matchAt_sound hq

theorem goodSpan_sliceStr {content : Str} {st en : Nat} (h : goodSpan content st en) :
    sliceStr content st en ≠ [] ∧ (sliceStr content st en).all isDigitC = true := by
  obtain ⟨hlt, hle⟩ := h
  refine ⟨?_, take_all_of_le_maxRun hle⟩
  unfold sliceStr
  have h1 : 1 ≤ maxRun isDigitC (content.drop st) := by omega
  cases hd : content.drop st with
  | nil => exact absurd hd (maxRun_pos_ne_nil h1)
  | cons c s =>
    cases hen : en - st with
    | zero => omega
    | succ k => simp

theorem take_sliceStr_drop {content : Str} {st en : Nat} (h : st ≤ en) :
    content.take st ++ (sliceStr content st en ++ content.drop en) = content := by
  unfold sliceStr
  rw [← List.append_assoc, ← List.take_add, Nat.add_sub_cancel' h, List.take_append_drop]

/-! ### Shape of `extract` and `replace` results -/

theorem extract_range_search {p : YearsPattern} {content f t : Str}
    (h : extract p content = some (.range f t)) :
    ∃ fs fe ts te, search p content = some (.range fs fe ts te) ∧
      f = sliceStr content fs fe ∧ t = sliceStr content ts te := by
  unfold extract at h
  cases hs : search p content with
  | none => rw [hs] at h; simp at h
  | some ms =>
    rw [hs] at h
    cases ms with
    | single ys ye => simp at h
    | range fs fe ts te =>
      simp only [Option.some.injEq, Years.range.injEq] at h
      exact ⟨fs, fe, ts, te, rfl, h.1.symm, h.2.symm⟩

theorem extract_single_search {p : YearsPattern} {content y : Str}
    (h : extract p content = some (.single y)) :
    ∃ ys ye, search p content = some (.single ys ye) ∧ y = sliceStr content ys ye := by
  unfold extract at h
  cases hs : search p content with
  | none => rw [hs] at h; simp at h
  | some ms =>
    rw [hs] at h
    cases ms with
    | range fs fe ts te => simp at h
    | single ys ye =>
      simp only [Option.some.injEq, Years.single.injEq] at h
      exact ⟨ys, ye, rfl, h.symm⟩

theorem replace_pair_of_search_range {p : YearsPattern} {content : Str}
    {fs fe ts te : Nat} (rf rt : Str) (hs : search p content = some (.range fs fe ts te)) :
    replace p content (.pair rf rt) =
      some (content.take fs ++ rf ++ sliceStr content fe ts ++ rt ++ content.drop te) := by
  unfold replace
  rw [hs]

theorem replace_one_of_search_range {p : YearsPattern} {content : Str}
    {fs fe ts te : Nat} (v : Str) (hs : search p content = some (.range fs fe ts te)) :
    replace p content (.one v) = some (content.take fs ++ v ++ content.drop te) := by
  unfold replace
  rw [hs]

theorem replace_pair_of_search_single {p : YearsPattern} {content : Str}
    {ys ye : Nat} (rf rt : Str) (hs : search p content = some (.single ys ye)) :
    replace p content (.pair rf rt) =
      some (content.take ys ++ rf ++ ('-' :: rt) ++ content.drop ye) := by
  unfold replace
  rw [hs]

theorem replace_one_of_search_single {p : YearsPattern} {content : Str}
    {ys ye : Nat} (v : Str) (hs : search p content = some (.single ys ye)) :
    replace p content (.one v) = some (content.take ys ++ v ++ content.drop ye) := by
  unfold replace
  rw [hs]

/-- The compiled form of the template `" Test (c) \x7byears\x7d"` used by the
repository's own test suite. -/
def pTest : YearsPattern := ⟨" Test (c) ".toList, []⟩

/-! ### Claim theorems: year pattern engine and decision procedure -/

/-- C7: for every text in which the compiled pattern has no match,
`extract` returns `None`, and `update_file` returns the content unchanged —
with no diagnostic when `required` is false, and with the missing-header
diagnostic (still leaving the content unchanged) when `required` is true. -/
theorem update_file_no_match (p : YearsPattern) (content last_year current_year : Str)
    (required : Bool) (h : search p content = none) :
    extract p content = none ∧
    update_file content last_year p current_year required =
      some ((if required then some NO_COPYRIGHT_HEADER_FOUND else none), content) := by
  have he : extract p content = none := by unfold extract; rw [h]
  refine ⟨he, ?_⟩
  unfold update_file
  rw [he]
  cases required <;> rfl

/-- Witness for C7 at a concrete unmatched text. -/
theorem update_file_no_match_witness :
    extract pTest "abc".toList = none ∧
    update_file "abc".toList "2023".toList pTest "2024".toList true =
      some ((if true then some NO_COPYRIGHT_HEADER_FOUND else none), "abc".toList) :=
  update_file_no_match pTest "abc".toList "2023".toList "2024".toList true (by decide)

theorem findSub_isSome_eq_containsSub (sub : Str) :
    ∀ s : Str, (findSub sub s).isSome = containsSub sub s := by
  intro s
  induction s with
  | nil =>
    rw [findSub, containsSub]
    cases hsw : startsWithL sub [] <;> simp [hsw]
  | cons c s ih =>
    rw [findSub, containsSub]
    cases hsw : startsWithL sub (c :: s) <;> simp [hsw, ih]

/-- C9: constructing a `YearsPattern` raises (`none`) iff the template does
not contain the placeholder, and `replace` raises (`none`) iff the compiled
pattern has no match in the given text. -/
theorem pattern_error_conditions (template : Str) (p : YearsPattern) (content : Str)
    (v : NewRange) :
    (mkYearsPattern template = none ↔ containsSub placeholder template = false) ∧
    (replace p content v = none ↔ search p content = none) := by
  constructor
  · unfold mkYearsPattern
    cases hc : containsSub placeholder template
    · simp
    · simp only [if_true, Bool.true_eq_false, iff_false]
      have : (findSub placeholder template).isSome = true := by
        rw [findSub_isSome_eq_containsSub, hc]
      obtain ⟨i, hi⟩ := Option.isSome_iff_exists.1 this
      rw [hi]
      simp
  · unfold replace
    cases hs : search p content with
    | none => simp
    | some ms => cases ms <;> cases v <;> simp

/-- C8: if the pattern matches a single year of value `Y` in `T`, then
rewriting with `Y` itself is the identity: `replace T Y = T`. -/
theorem replace_single_roundtrip (p : YearsPattern) (content Y : Str)
    (h : extract p content = some (.single Y)) :
    replace p content (.one Y) = some content := by
  obtain ⟨ys, ye, hs, hy⟩ := extract_single_search h
  rw [replace_one_of_search_single Y hs, hy]
  have hok : goodSpan content ys ye := search_sound hs
  rw [List.append_assoc, take_sliceStr_drop (Nat.le_of_lt hok.1)]

/-- Witness for C8 at a concrete matched text. -/
theorem replace_single_roundtrip_witness :
    replace pTest "# Test (c) 2023\nabc".toList (.one "2023".toList) =
      some "# Test (c) 2023\nabc".toList :=
  replace_single_roundtrip pTest "# Test (c) 2023\nabc".toList "2023".toList (by decide)

/-- C6 counterexample: the pattern accepts year tokens of fewer than four
digits — `extract` on `"A7B"` with template `"A\x7byears\x7dB"` returns the
one-digit token `"7"`. -/
theorem extract_short_year_cex :
    mkYearsPattern "A\x7byears\x7dB".toList = some ⟨['A'], ['B']⟩ ∧
    extract ⟨['A'], ['B']⟩ "A7B".toList = some (.single ['7']) ∧
    (['7'] : Str).length < 4 := by
  refine ⟨by decide, by decide, by decide⟩

/-- C6 amended: every year token located by `extract` — a single year or
either endpoint of a range — is a nonempty string of digits (the `\d+`
sub-patterns guarantee one or more digits, not four or more). -/
theorem extract_tokens_digit_nonempty (p : YearsPattern) (content : Str) :
    (∀ y, extract p content = some (.single y) → y ≠ [] ∧ y.all isDigitC = true) ∧
    (∀ f t, extract p content = some (.range f t) →
      (f ≠ [] ∧ f.all isDigitC = true) ∧ (t ≠ [] ∧ t.all isDigitC = true)) := by
  constructor
  · intro y h
    obtain ⟨ys, ye, hs, hy⟩ := extract_single_search h
    have hok : goodSpan content ys ye := search_sound hs
    rw [hy]
    exact goodSpan_sliceStr hok
  · intro f t h
    obtain ⟨fs, fe, ts, te, hs, hf, ht⟩ := extract_range_search h
    have hok : spanOK content (.range fs fe ts te) := search_sound hs
    rw [hf, ht]
    exact ⟨goodSpan_sliceStr hok.1, goodSpan_sliceStr hok.2⟩

/-- Witness for C6 (amended) at a concrete matched text. -/
theorem extract_tokens_digit_nonempty_witness :
    ("2023".toList : Str) ≠ [] ∧ ("2023".toList : Str).all isDigitC = true :=
  (extract_tokens_digit_nonempty pTest "# Test (c) 2023\nabc".toList).1
    "2023".toList (by decide)

/-- C1: when the pattern matches a non-degenerate range `(f, t)`,
`update_file` returns no diagnostic and the content unchanged exactly when
`t` equals `last_year` (regardless of `f`); otherwise it returns the
mismatch diagnostic together with the content rewritten by
`replace content (f, current_year)`.  When the pattern matches a single
year `y`, it returns no diagnostic and the content unchanged exactly when
`y = last_year`; otherwise the mismatch diagnostic together with the
content rewritten by `replace content (y, current_year)`. -/
theorem update_file_decision (p : YearsPattern) (content last_year current_year f t y : Str)
    (required : Bool) :
    (extract p content = some (.range f t) → f ≠ t →
      ((update_file content last_year p current_year required = some (none, content)) ↔
        last_year = t) ∧
      (last_year ≠ t →
        (replace p content (.pair f current_year)).isSome = true ∧
        ∀ c', replace p content (.pair f current_year) = some c' →
          update_file content last_year p current_year required =
            some (some (mismatchMsg last_year t), c'))) ∧
    (extract p content = some (.single y) →
      ((update_file content last_year p current_year required = some (none, content)) ↔
        y = last_year) ∧
      (y ≠ last_year →
        (replace p content (.pair y current_year)).isSome = true ∧
        ∀ c', replace p content (.pair y current_year) = some c' →
          update_file content last_year p current_year required =
            some (some (mismatchMsg last_year y), c'))) := by
  constructor
  · intro h hft
    obtain ⟨fs, fe, ts, te, hs, hf, ht⟩ := extract_range_search h
    have hrep := replace_pair_of_search_range f current_year hs
    constructor
    · constructor
      · intro hupd
        by_contra hlt
        simp only [update_file, h] at hupd
        rw [if_neg hft, if_neg hlt, hrep] at hupd
        simp at hupd
      · intro hlt
        simp only [update_file, h]
        rw [if_neg hft, if_pos hlt]
    · intro hlt
      refine ⟨by rw [hrep]; rfl, ?_⟩
      intro c' hc'
      simp only [update_file, h]
      rw [if_neg hft, if_neg hlt, hc']
      rfl
  · intro h
    obtain ⟨ys, ye, hs, hy⟩ := extract_single_search h
    have hrep := replace_pair_of_search_single y current_year hs
    constructor
    · constructor
      · intro hupd
        by_contra hyl
        simp only [update_file, h] at hupd
        rw [if_neg hyl, hrep] at hupd
        simp at hupd
      · intro hyl
        simp only [update_file, h]
        rw [if_pos hyl]
    · intro hyl
      refine ⟨by rw [hrep]; rfl, ?_⟩
      intro c' hc'
      simp only [update_file, h]
      rw [if_neg hyl, hc']
      rfl

/-- Witness for C1 at a concrete correct range header. -/
theorem update_file_decision_witness :
    (update_file "# Test (c) 2022-2023\nabc".toList "2023".toList pTest "2024".toList false =
      some (none, "# Test (c) 2022-2023\nabc".toList)) ↔
      "2023".toList = "2023".toList :=
  ((update_file_decision pTest "# Test (c) 2022-2023\nabc".toList "2023".toList
      "2024".toList "2022".toList "2023".toList [] false).1 (by decide) (by decide)).1

/-- C3: when the pattern matches a degenerate range `(f, f)`, `update_file`
always returns the diagnostic "range syntax is used for a single year"; the
content is rewritten by `replace content current_year` (collapse to a single
year) when `f = current_year`, and by `replace content (f, current_year)`
otherwise. -/
theorem update_file_degenerate (p : YearsPattern) (content last_year current_year f : Str)
    (required : Bool) (h : extract p content = some (.range f f)) :
    (f = current_year →
      (replace p content (.one current_year)).isSome = true ∧
      ∀ c', replace p content (.one current_year) = some c' →
        update_file content last_year p current_year required =
          some (some RANGE_USED_FOR_A_SINGLE_YEAR, c')) ∧
    (f ≠ current_year →
      (replace p content (.pair f current_year)).isSome = true ∧
      ∀ c', replace p content (.pair f current_year) = some c' →
        update_file content last_year p current_year required =
          some (some RANGE_USED_FOR_A_SINGLE_YEAR, c')) := by
  obtain ⟨fs, fe, ts, te, hs, hf, ht⟩ := extract_range_search h
  constructor
  · intro hfc
    refine ⟨by rw [replace_one_of_search_range current_year hs]; rfl, ?_⟩
    intro c' hc'
    simp only [update_file, h, if_true]
    rw [if_pos hfc, hc']
    rfl
  · intro hfc
    refine ⟨by rw [replace_pair_of_search_range f current_year hs]; rfl, ?_⟩
    intro c' hc'
    simp only [update_file, h, if_true]
    rw [if_neg hfc, hc']
    rfl

/-- Witness for C3 at the degenerate header of the repository's test suite:
`(c) 2024-2024` with `current_year = 2024` collapses to `(c) 2024`. -/
theorem update_file_degenerate_witness :
    update_file "# Test (c) 2024-2024\nabc".toList "2023".toList pTest "2024".toList false =
      some (some RANGE_USED_FOR_A_SINGLE_YEAR, "# Test (c) 2024\nabc".toList) :=
  ((update_file_degenerate pTest "# Test (c) 2024-2024\nabc".toList "2023".toList
      "2024".toList "2024".toList false (by decide)).1 rfl).2
    "# Test (c) 2024\nabc".toList (by decide)

/-- C4 counterexample: idempotence fails as stated.  With
`last_year = "2023"` and `current_year = "2024"` (the spec's own
range-growth example), the first application rewrites `2021-2022` to
`2021-2024`, but the second application still reports
"expected year 2023, actual is 2024": the upper bound was rewritten to
`current_year`, while the check compares it against `last_year`. -/
theorem update_file_not_idempotent_cex :
    update_file "# Test (c) 2021-2022\nabc".toList "2023".toList pTest "2024".toList false =
      some (some ("expected year 2023, actual is 2022".toList),
        "# Test (c) 2021-2024\nabc".toList) ∧
    update_file "# Test (c) 2021-2024\nabc".toList "2023".toList pTest "2024".toList false =
      some (some ("expected year 2023, actual is 2024".toList),
        "# Test (c) 2021-2024\nabc".toList) ∧
    (update_file "# Test (c) 2021-2024\nabc".toList "2023".toList pTest "2024".toList
        false).map (fun r => r.1) ≠ some none := by
  refine ⟨by decide, by decide, by decide⟩

/-- C4 amended: a second application of `update_file` with the same years
yields no diagnostic (and leaves the content fixed) provided that
`last_year = current_year` and that the pattern locates in the first
application's output exactly the token the rewrite wrote — the single year
`current_year`, or a range ending in `current_year` with distinct
endpoints.  (Without these provisos idempotence fails: see the
counterexample, and note that a rewrite of a range `(f, t)` with
`f = current_year` produces a degenerate range, which is diagnosed again.) -/
theorem update_file_idempotent_conditional (p : YearsPattern)
    (content c1 last_year current_year : Str) (required : Bool) (d : Option Str)
    (hLC : last_year = current_year)
    (_h1 : update_file content last_year p current_year required = some (d, c1))
    (h2 : extract p c1 = some (.single current_year) ∨
      ∃ x, x ≠ current_year ∧ extract p c1 = some (.range x current_year)) :
    update_file c1 last_year p current_year required = some (none, c1) := by
  rcases h2 with h2 | ⟨x, hx, h2⟩
  · simp only [update_file, h2]
    rw [if_pos hLC.symm]
  · simp only [update_file, h2]
    rw [if_neg hx, if_pos hLC]

/-- Witness for C4 (amended): fixing a stale single year `2020` with
`last_year = current_year = "2024"` produces `2020-2024`, which the second
application accepts. -/
theorem update_file_idempotent_conditional_witness :
    update_file "# Test (c) 2020-2024\nabc".toList "2024".toList pTest "2024".toList false =
      some (none, "# Test (c) 2020-2024\nabc".toList) :=
  update_file_idempotent_conditional pTest "# Test (c) 2020\nabc".toList
    "# Test (c) 2020-2024\nabc".toList "2024".toList "2024".toList false
    (some ("expected year 2024, actual is 2020".toList)) rfl (by decide)
    (Or.inr ⟨"2020".toList, by decide, by decide⟩)

/-! ### Claim theorems: change sets and history reconstruction -/

theorem compute_last_modified_cons (c : GitCommitInfo) (commits : List GitCommitInfo) :
    compute_last_modified_dict (c :: commits) =
      applyCommit (compute_last_modified_dict commits) c := by
  unfold compute_last_modified_dict
  rw [List.reverse_cons, List.foldl_append]
  rfl

theorem dlookup_dinsert_self (d : PathDict) (k : Str) (v : Nat) :
    dlookup (dinsert d k v) k = some v := by
  unfold dinsert dlookup
  rw [if_pos rfl]

/-- C2: `compute_last_modified_dict` replays the newest-first commit list in
reverse (the head commit is applied last), and within one commit first
propagates index entries along renames and then overwrites changed files
with the commit's timestamp.  Consequently a pure rename `A → B` keeps `A`'s
previous timestamp under `B`, while a rename with a simultaneous content
change maps `B` to the renaming commit's own timestamp. -/
theorem compute_last_modified_rename (older : List GitCommitInfo) (tc ta : Nat)
    (A B : Str) (csP csM : GitChangeSet)
    (hPm : csP.moved_files = [(A, B)]) (hPc : csP.changed_files = [])
    (hMm : csM.moved_files = [(A, B)]) (hMc : csM.changed_files = [B])
    (hA : dlookup (compute_last_modified_dict older) A = some ta) :
    (∀ (c : GitCommitInfo) (commits : List GitCommitInfo),
      compute_last_modified_dict (c :: commits) =
        applyCommit (compute_last_modified_dict commits) c) ∧
    dlookup (compute_last_modified_dict (⟨tc, csP⟩ :: older)) B = some ta ∧
    dlookup (compute_last_modified_dict (⟨tc, csM⟩ :: older)) B = some tc := by
  refine ⟨fun c commits => compute_last_modified_cons c commits, ?_, ?_⟩
  · rw [compute_last_modified_cons]
    unfold applyCommit
    simp only [hPm, hPc, List.foldl_cons, List.foldl_nil]
    rw [hA]
    exact dlookup_dinsert_self _ B ta
  · rw [compute_last_modified_cons]
    unfold applyCommit
    simp only [hMm, hMc, List.foldl_cons, List.foldl_nil]
    exact dlookup_dinsert_self _ B tc

/-- Witness for C2: commit 5 changes `a`; commit 7 renames `a → b` (purely
in the first run, with a content change in the second). -/
theorem compute_last_modified_rename_witness :
    dlookup (compute_last_modified_dict
      [⟨7, ⟨[], [], [("a".toList, "b".toList)], ["b".toList]⟩⟩,
       ⟨5, ⟨[], ["a".toList], [], ["a".toList]⟩⟩]) "b".toList = some 5 ∧
    dlookup (compute_last_modified_dict
      [⟨7, ⟨[], ["b".toList], [("a".toList, "b".toList)], ["b".toList]⟩⟩,
       ⟨5, ⟨[], ["a".toList], [], ["a".toList]⟩⟩]) "b".toList = some 7 := by
  have h := compute_last_modified_rename [⟨5, ⟨[], ["a".toList], [], ["a".toList]⟩⟩] 7 5
    "a".toList "b".toList
    ⟨[], [], [("a".toList, "b".toList)], ["b".toList]⟩
    ⟨[], ["b".toList], [("a".toList, "b".toList)], ["b".toList]⟩
    rfl rfl rfl rfl (by decide)
  exact ⟨h.2.1, h.2.2⟩

theorem splitLast_append_last : ∀ (xs : List Str) (x : Str), splitLast (xs ++ [x]) = some (xs, x) := by
  intro xs
  induction xs with
  | nil => intro x; rfl
  | cons y ys ih =>
    intro x
    cases ys with
    | nil => rfl
    | cons z zs =>
      rw [List.cons_append, List.cons_append, splitLast, ← List.cons_append, ih]

/-- Full case analysis of one successful `__post_init__` iteration. -/
theorem csStep_spec {acc acc' : CSAcc} {item : List Str} (h : csStep acc item = some acc') :
    ∃ ct rest extra dst,
      item = ct :: rest ∧ splitLast rest = some (extra, dst) ∧
      ((startsWithL "R".toList ct = true ∧ ∃ e0 es, extra = e0 :: es ∧
          acc' = (acc.1 ++ [dst],
                  acc.2.1 ++ (if ct = "R100".toList then [] else [dst]),
                  acc.2.2 ++ [(e0, dst)])) ∨
       (startsWithL "R".toList ct = false ∧
          acc' = (acc.1 ++ [dst], acc.2.1 ++ [dst], acc.2.2))) := by
  unfold csStep at h
  split at h
  · exact absurd h (by simp)
  · rename_i ct rest
    split at h
    · exact absurd h (by simp)
    · rename_i pr extra dst hsplit
      refine ⟨ct, rest, extra, dst, rfl, hsplit, ?_⟩
      by_cases hR : startsWithL "R".toList ct = true
      · rw [if_pos hR] at h
        left
        refine ⟨hR, ?_⟩
        cases extra with
        | nil => exact absurd h (by simp)
        | cons e0 es =>
          injection h with h
          exact ⟨e0, es, rfl, h.symm⟩
      · rw [if_neg hR] at h
        right
        injection h with h
        exact ⟨by simpa using hR, h.symm⟩

theorem csFold_mono : ∀ {items : List (List Str)} {acc acc' : CSAcc},
    csFold items acc = some acc' →
    (∀ x ∈ acc.1, x ∈ acc'.1) ∧ (∀ x ∈ acc.2.1, x ∈ acc'.2.1) ∧
    (∀ pr ∈ acc.2.2, pr ∈ acc'.2.2) := by
  intro items
  induction items with
  | nil =>
    intro acc acc' h
    rw [csFold] at h
    injection h with h
    rw [h]
    exact ⟨fun x hx => hx, fun x hx => hx, fun pr hpr => hpr⟩
  | cons it its ih =>
    intro acc acc' h
    rw [csFold] at h
    split at h
    · rename_i acc1 hstep
      obtain ⟨m1, m2, m3⟩ := ih h
      obtain ⟨ct, rest, extra, dst, _, _, hshape⟩ := csStep_spec hstep
      rcases hshape with ⟨_, e0, es, _, hacc1⟩ | ⟨_, hacc1⟩ <;> rw [hacc1] at m1 m2 m3
      · exact ⟨fun x hx => m1 x (List.mem_append_left _ hx),
               fun x hx => m2 x (List.mem_append_left _ hx),
               fun pr hpr => m3 pr (List.mem_append_left _ hpr)⟩
      · exact ⟨fun x hx => m1 x (List.mem_append_left _ hx),
               fun x hx => m2 x (List.mem_append_left _ hx),
               fun pr hpr => m3 pr hpr⟩
    · exact absurd h (by simp)

theorem csFold_changed_sub_touched : ∀ {items : List (List Str)} {acc acc' : CSAcc},
    csFold items acc = some acc' → (∀ x ∈ acc.2.1, x ∈ acc.1) →
    ∀ x ∈ acc'.2.1, x ∈ acc'.1 := by
  intro items
  induction items with
  | nil =>
    intro acc acc' h hinv
    rw [csFold] at h
    injection h with h
    rw [← h]
    exact hinv
  | cons it its ih =>
    intro acc acc' h hinv
    rw [csFold] at h
    split at h
    · rename_i acc1 hstep
      refine ih h ?_
      obtain ⟨ct, rest, extra, dst, _, _, hshape⟩ := csStep_spec hstep
      rcases hshape with ⟨_, e0, es, _, hacc1⟩ | ⟨_, hacc1⟩ <;> rw [hacc1]
      · intro x hx
        rcases List.mem_append.1 hx with hx | hx
        · exact List.mem_append_left _ (hinv x hx)
        · split at hx
          · exact absurd hx (by simp)
          · rw [List.mem_singleton.1 hx]
            exact List.mem_append_right _ (List.mem_singleton.2 rfl)
      · intro x hx
        rcases List.mem_append.1 hx with hx | hx
        · exact List.mem_append_left _ (hinv x hx)
        · rw [List.mem_singleton.1 hx]
          exact List.mem_append_right _ (List.mem_singleton.2 rfl)
    · exact absurd h (by simp)

theorem csFold_items : ∀ {items : List (List Str)} {acc acc' : CSAcc},
    csFold items acc = some acc' →
    ∀ item ∈ items, ∀ ct rest extra dst, item = ct :: rest →
    splitLast rest = some (extra, dst) →
    dst ∈ acc'.1 ∧ (startsWithL "R".toList ct = true →
      ∃ e0 es, extra = e0 :: es ∧ (e0, dst) ∈ acc'.2.2) := by
  intro items
  induction items with
  | nil => intro acc acc' _ item hmem; exact absurd hmem (by simp)
  | cons it its ih =>
    intro acc acc' h item hmem ct rest extra dst hitem hsplit
    rw [csFold] at h
    split at h
    · rename_i acc1 hstep
      rcases List.mem_cons.1 hmem with hit | hmem'
      · obtain ⟨ct', rest', extra', dst', hitem', hsplit', hshape⟩ := csStep_spec hstep
        have heq : ct :: rest = ct' :: rest' := by rw [← hitem, hit, hitem']
        injection heq with hct hrest
        subst hct
        subst hrest
        rw [hsplit] at hsplit'
        injection hsplit' with hsplit'
        injection hsplit' with hextra hdst
        subst hextra
        subst hdst
        obtain ⟨m1, _, m3⟩ := csFold_mono h
        rcases hshape with ⟨hR, e0, es, hx, hacc1⟩ | ⟨hR, hacc1⟩
        · refine ⟨?_, fun _ => ⟨e0, es, hx, ?_⟩⟩
          · refine m1 dst ?_
            rw [hacc1]
            exact List.mem_append_right _ (List.mem_singleton.2 rfl)
          · refine m3 (e0, dst) ?_
            rw [hacc1]
            exact List.mem_append_right _ (List.mem_singleton.2 rfl)
        · refine ⟨?_, fun hRtrue => ?_⟩
          · refine m1 dst ?_
            rw [hacc1]
            exact List.mem_append_right _ (List.mem_singleton.2 rfl)
          · rw [hRtrue] at hR
            exact absurd hR (by simp)
      · exact ih h item hmem' ct rest extra dst hitem hsplit
    · exact absurd h (by simp)

/-- C5: the change set built from a list of status records satisfies:
`changed_files ⊆ touched_files`; every record's destination is in
`touched_files`; every rename record contributes its `(src, dst)` pair to
`moved_files`; a pure rename (code `R100`) contributes its destination to
`moved_files` but not to `changed_files`, while a rename with any other
R-code contributes it to both (witnessed on single-record change sets). -/
theorem changeset_invariants :
    (∀ (items : List (List Str)) (cs : GitChangeSet), mkGitChangeSet items = some cs →
      (∀ x ∈ cs.changed_files, x ∈ cs.touched_files) ∧
      (∀ item ∈ items, ∀ ct rest extra dst, item = ct :: rest →
        splitLast rest = some (extra, dst) →
        dst ∈ cs.touched_files ∧
        (startsWithL "R".toList ct = true →
          ∃ e0 es, extra = e0 :: es ∧ (e0, dst) ∈ cs.moved_files))) ∧
    (∀ (ct e0 dst : Str) (extra : List Str), startsWithL "R".toList ct = true →
      (ct = "R100".toList →
        mkGitChangeSet [ct :: (e0 :: extra) ++ [dst]] =
          some ⟨[ct :: (e0 :: extra) ++ [dst]], [], [(e0, dst)], [dst]⟩) ∧
      (ct ≠ "R100".toList →
        mkGitChangeSet [ct :: (e0 :: extra) ++ [dst]] =
          some ⟨[ct :: (e0 :: extra) ++ [dst]], [dst], [(e0, dst)], [dst]⟩)) := by
  constructor
  · intro items cs hmk
    unfold mkGitChangeSet at hmk
    split at hmk
    · exact absurd hmk (by simp)
    · rename_i t c m hfold
      injection hmk with hmk
      rw [← hmk]
      constructor
      · intro x hx
        exact csFold_changed_sub_touched hfold (by intro x hx; exact absurd hx (by simp)) x hx
      · intro item hmem ct rest extra dst hitem hsplit
        exact csFold_items hfold item hmem ct rest extra dst hitem hsplit
  · intro ct e0 dst extra hR
    constructor
    · intro h100
      subst h100
      have hsl : splitLast (e0 :: (extra ++ [dst])) = some (e0 :: extra, dst) := by
        rw [← List.cons_append]
        exact splitLast_append_last (e0 :: extra) dst
      have hR1 : startsWithL ['R'] ['R', '1', '0', '0'] = true := rfl
      simp [mkGitChangeSet, csFold, csStep, hsl, hR1]
    · intro h100
      have hsl : splitLast (e0 :: (extra ++ [dst])) = some (e0 :: extra, dst) := by
        rw [← List.cons_append]
        exact splitLast_append_last (e0 :: extra) dst
      have hR1 : startsWithL ['R'] ct = true := hR
      have h100a : ¬(ct = ['R', '1', '0', '0']) := h100
      simp [mkGitChangeSet, csFold, csStep, hsl, hR1, h100a]

/-- Witness for C5: the destination of a concrete `R100` record is in
`touched_files` of the parsed two-record change set. -/
theorem changeset_invariants_witness :
    "b".toList ∈ (GitChangeSet.mk
      [["R100".toList, "a".toList, "b".toList], ["M".toList, "c".toList]]
      ["c".toList] [("a".toList, "b".toList)] ["b".toList, "c".toList]).touched_files :=
  ((changeset_invariants.1
      [["R100".toList, "a".toList, "b".toList], ["M".toList, "c".toList]]
      ⟨[["R100".toList, "a".toList, "b".toList], ["M".toList, "c".toList]],
        ["c".toList], [("a".toList, "b".toList)], ["b".toList, "c".toList]⟩
      (by decide)).2
    ["R100".toList, "a".toList, "b".toList] (by decide)
    "R100".toList ["a".toList, "b".toList] ["a".toList] "b".toList rfl (by decide)).1

/-- C10 counterexample: a whitespace-only (blank but nonempty) line is not
ignored by `parse`.  It survives the `if line` truthiness filter, tab-splits
into a single-field record, and the destructuring
`change_type, *extra_files, dst = item` raises `ValueError`; `parse` fails
instead of succeeding with no record. -/
theorem parse_blank_line_cex :
    ([' '] : Str) ≠ [] ∧ ([' '] : Str).all isSpaceC = true ∧
    parseChangeSet [[' ']] = none := by
  refine ⟨by decide, by decide, by decide⟩

/-- C10 amended: `parse` ignores empty lines — deleting an empty line does
not change the result, and an input consisting only of empty lines yields
the empty change set, which is falsy.  (Whitespace-only nonempty lines are
not ignored: they make `parse` raise, see the counterexample.) -/
theorem parse_empty_lines_ignored :
    (∀ l1 l2 : List Str, parseChangeSet (l1 ++ [] :: l2) = parseChangeSet (l1 ++ l2)) ∧
    (∀ lines : List Str, (∀ l ∈ lines, l = []) →
      parseChangeSet lines = some ⟨[], [], [], []⟩ ∧
      csBool ⟨[], [], [], []⟩ = false) := by
  constructor
  · intro l1 l2
    unfold parseChangeSet
    rw [List.filter_append, List.filter_append, List.filter_cons]
    simp
  · intro lines hl
    refine ⟨?_, rfl⟩
    unfold parseChangeSet
    have hfil : lines.filter (fun l => l ≠ []) = [] := by
      induction lines with
      | nil => rfl
      | cons l ls ih =>
        rw [List.filter_cons]
        have hl0 : l = [] := hl l (List.mem_cons_self l ls)
        rw [if_neg (by simp [hl0])]
        exact ih (fun x hx => hl x (List.mem_cons_of_mem l hx))
    rw [hfil]
    rfl

/-- Witness for C10 (amended) on an input of two empty lines. -/
theorem parse_empty_lines_ignored_witness :
    parseChangeSet [[], []] = some ⟨[], [], [], []⟩ ∧
    csBool ⟨[], [], [], []⟩ = false :=
  parse_empty_lines_ignored.2 [[], []] (by decide)
